import Mathlib

/-!
# Verification of `snp2mutant_coords.py`

Shallow embedding of the coordinate-mapping core of the repository
(`simulated_data/prepare_simulation_run/scripts/snp2mutant_coords.py`):

* `aa_to_genomic_from_exons` — amino-acid position to genomic codon interval,
* `find_cds_for_gene`      — gene-model lookup over parsed annotation records,
* `sequence_for_pos`       — reference sequence extraction,
* `_revcom`                — reverse complement.

Python machine integers are modelled as `Int` (Python ints are unbounded, so no
wrap-around is modelled); Python strings are modelled as `String` / `List Char`;
exceptions are modelled by sum types (`Option`, dedicated result inductives).
-/

/-! ## Reverse complement (`_revcom`, lines 211-217)

`complement = {'A': 'T', 'C': 'G', 'G': 'C', 'T': 'A'}`
`return "".join(complement.get(base, base) for base in reversed(seq.upper()))` -/

/-- The `complement.get(base, base)` dictionary lookup: Watson-Crick complement
on uppercase A/C/G/T, identity on every other character. -/
def complementBase (c : Char) : Char :=
  if c == 'A' then 'T'
  else if c == 'C' then 'G'
  else if c == 'G' then 'C'
  else if c == 'T' then 'A'
  else c

/-- `_revcom(seq)`: uppercase the sequence, reverse it, complement each base.
Strings are modelled as `List Char`. -/
def _revcom (seq : List Char) : List Char :=
  ((seq.map Char.toUpper).reverse).map complementBase

/-! ## Codon coordinate mapper (`aa_to_genomic_from_exons`, lines 128-180) -/

/-- The exon loop of `aa_to_genomic_from_exons` (lines 139-164): walk the exon
list accumulating `running` CDS length; for each exon intersect its CDS-relative
span with the codon span `[cS, cE]` and, on nonzero overlap, translate the
overlap back to genomic coordinates (strand `+1`: offsets from `start`;
otherwise offsets down from `end`, min/max-normalised). -/
def gPositions (cS cE strand : Int) : List (Int × Int) → Int → List (Int × Int)
  | [], _ => []
  | (s, e) :: rest, running =>
    let exon_len := e - s + 1
    let exon_cds_start := running + 1
    let exon_cds_end := running + exon_len
    let overlap_start := max exon_cds_start cS
    let overlap_end := min exon_cds_end cE
    if overlap_start ≤ overlap_end then
      let offset_start := overlap_start - exon_cds_start
      let offset_end := overlap_end - exon_cds_start
      (if strand == 1 then
        (s + offset_start, s + offset_end)
      else
        (min (e - offset_start) (e - offset_end), max (e - offset_start) (e - offset_end)))
        :: gPositions cS cE strand rest (running + exon_len)
    else
      gPositions cS cE strand rest (running + exon_len)

/-- Lexicographic order on integer pairs: Python `list.sort()` on 2-tuples. -/
def pairLex (a b : Int × Int) : Prop :=
  a.1 < b.1 ∨ (a.1 = b.1 ∧ a.2 ≤ b.2)

instance : DecidableRel pairLex := fun a b => by
  unfold pairLex; infer_instance

instance : IsTotal (Int × Int) pairLex :=
  ⟨by intro a b; unfold pairLex; omega⟩

instance : IsTrans (Int × Int) pairLex :=
  ⟨by intro a b c; unfold pairLex; omega⟩

/-- `g_positions.sort()` (line 170): Python's stable sort in the lexicographic
tuple order (a stable sort of integer pairs is uniquely determined by the order
because ties are identical pairs). -/
def sortPairs (l : List (Int × Int)) : List (Int × Int) :=
  List.insertionSort pairLex l

/-- The merge loop of lines 171-178: starting from the first sorted range,
extend `merged_end` over any subsequent range starting at most one past it;
genuinely disjoint ranges fall into the silent `pass` branch.  `merged_start`
is never updated. -/
def mergeFold (ms me : Int) : List (Int × Int) → Int × Int
  | [] => (ms, me)
  | (s, e) :: rest =>
    if s ≤ me + 1 then mergeFold ms (max me e) rest
    else mergeFold ms me rest

/-- `aa_to_genomic_from_exons(exons, aa_pos, strand)` (lines 128-180).
`none` models the `ValueError("Codon not found within exons...")` raise. -/
def aa_to_genomic_from_exons (exons : List (Int × Int)) (aa_pos strand : Int) :
    Option (Int × Int) :=
  let codon_start_cds := (aa_pos - 1) * 3 + 1
  let codon_end_cds := codon_start_cds + 2
  match sortPairs (gPositions codon_start_cds codon_end_cds strand exons 0) with
  | [] => none
  | p :: rest => some (mergeFold p.1 p.2 rest)

/-- CDS-relative spans of the exons: exon `i` occupies 1-based CDS positions
`[running_i + 1, running_i + len_i]` where `running_i` is the total length of
the preceding exons.  Mirrors the `exon_cds_start`/`exon_cds_end` bookkeeping
of the loop, independently of any genomic translation. -/
def cdsSpans (running : Int) : List (Int × Int) → List (Int × Int)
  | [] => []
  | (s, e) :: rest =>
    (running + 1, running + (e - s + 1)) :: cdsSpans (running + (e - s + 1)) rest

/-- Total CDS length of an exon list. -/
def totalCdsLen (exons : List (Int × Int)) : Int :=
  (exons.map (fun p => p.2 - p.1 + 1)).sum

/-! ### Helper lemmas about the codon mapper -/

/-- Unfolding of `gPositions` on a cons cell, with the `let`s expanded. -/
theorem gPositions_cons (cS cE strand s e : Int) (rest : List (Int × Int)) (running : Int) :
    gPositions cS cE strand ((s, e) :: rest) running =
      if max (running + 1) cS ≤ min (running + (e - s + 1)) cE then
        (if strand == 1 then
          (s + (max (running + 1) cS - (running + 1)),
           s + (min (running + (e - s + 1)) cE - (running + 1)))
        else
          (min (e - (max (running + 1) cS - (running + 1)))
               (e - (min (running + (e - s + 1)) cE - (running + 1))),
           max (e - (max (running + 1) cS - (running + 1)))
               (e - (min (running + (e - s + 1)) cE - (running + 1)))))
          :: gPositions cS cE strand rest (running + (e - s + 1))
      else gPositions cS cE strand rest (running + (e - s + 1)) := rfl

/-- The loop produces no fragment at all exactly when no exon's CDS-relative
span meets the codon span. -/
theorem gPositions_eq_nil_iff (cS cE strand : Int) (exons : List (Int × Int)) (running : Int) :
    gPositions cS cE strand exons running = [] ↔
      ∀ sp ∈ cdsSpans running exons, min sp.2 cE < max sp.1 cS := by
  induction exons generalizing running with
  | nil => simp [gPositions, cdsSpans]
  | cons hd tl ih =>
    obtain ⟨s, e⟩ := hd
    rw [gPositions_cons]
    by_cases hcond : max (running + 1) cS ≤ min (running + (e - s + 1)) cE
    · rw [if_pos hcond]
      simp only [cdsSpans, List.mem_cons]
      constructor
      · intro h; exact absurd h (List.cons_ne_nil _ _)
      · intro h
        have := h (running + 1, running + (e - s + 1)) (Or.inl rfl)
        simp only at this
        omega
    · rw [if_neg hcond, ih]
      simp only [cdsSpans, List.mem_cons]
      constructor
      · intro h sp hsp
        rcases hsp with hsp | hsp
        · subst hsp; simp only; omega
        · exact h sp hsp
      · intro h sp hsp
        exact h sp (Or.inr hsp)

/-- `sortPairs` returns the empty list only on the empty list. -/
theorem sortPairs_eq_nil_iff (l : List (Int × Int)) : sortPairs l = [] ↔ l = [] := by
  have hp := List.perm_insertionSort pairLex l
  unfold sortPairs
  constructor
  · intro h; rw [h] at hp; exact hp.symm.eq_nil
  · intro h; subst h; rfl

/-- If every exon is genomically valid (`start ≤ end`) and the whole codon span
lies at or before `running`, the remaining exons contribute no fragment. -/
theorem gPositions_eq_nil_of_le (cS cE strand : Int) (exons : List (Int × Int)) (running : Int)
    (hval : ∀ p ∈ exons, p.1 ≤ p.2) (h : cE ≤ running) :
    gPositions cS cE strand exons running = [] := by
  induction exons generalizing running with
  | nil => rfl
  | cons hd tl ih =>
    obtain ⟨s, e⟩ := hd
    have hse : s ≤ e := hval (s, e) (List.mem_cons_self _ _)
    rw [gPositions_cons, if_neg (by omega)]
    exact ih _ (fun p hp => hval p (List.mem_cons_of_mem _ hp)) (by omega)

/-- Every CDS-relative span of a valid exon list starts after `running`. -/
theorem cdsSpans_lower_bound (exons : List (Int × Int)) (running : Int)
    (hval : ∀ p ∈ exons, p.1 ≤ p.2) :
    ∀ sp ∈ cdsSpans running exons, running + 1 ≤ sp.1 := by
  induction exons generalizing running with
  | nil => intro sp hsp; simp [cdsSpans] at hsp
  | cons hd tl ih =>
    obtain ⟨s, e⟩ := hd
    have hse : s ≤ e := hval (s, e) (List.mem_cons_self _ _)
    intro sp hsp
    simp only [cdsSpans, List.mem_cons] at hsp
    rcases hsp with hsp | hsp
    · subst hsp; simp
    · have := ih (running + (e - s + 1)) (fun p hp => hval p (List.mem_cons_of_mem _ hp)) sp hsp
      omega

/-- If the codon span is wholly contained in one exon's CDS-relative span (and
the exons are genomically valid), the loop produces exactly one fragment, whose
genomic width equals the codon width, on either strand. -/
theorem gPositions_single_of_contained (cS cE strand : Int) (exons : List (Int × Int))
    (running : Int) (hval : ∀ p ∈ exons, p.1 ≤ p.2) (hstr : strand = 1 ∨ strand = -1)
    (hcs : cS ≤ cE) (hin : ∃ sp ∈ cdsSpans running exons, sp.1 ≤ cS ∧ cE ≤ sp.2) :
    ∃ g1 g2, gPositions cS cE strand exons running = [(g1, g2)] ∧ g1 ≤ g2 ∧ g2 - g1 = cE - cS := by
  induction exons generalizing running with
  | nil => obtain ⟨sp, hsp, -⟩ := hin; simp [cdsSpans] at hsp
  | cons hd tl ih =>
    obtain ⟨s, e⟩ := hd
    have hse : s ≤ e := hval (s, e) (List.mem_cons_self _ _)
    have hvtl : ∀ p ∈ tl, p.1 ≤ p.2 := fun p hp => hval p (List.mem_cons_of_mem _ hp)
    obtain ⟨sp, hsp, hsp1, hsp2⟩ := hin
    simp only [cdsSpans, List.mem_cons] at hsp
    rcases hsp with hsp | hsp
    · -- the codon is contained in the head exon
      subst hsp
      simp only at hsp1 hsp2
      have hos : max (running + 1) cS = cS := by omega
      have hoe : min (running + (e - s + 1)) cE = cE := by omega
      rw [gPositions_cons, if_pos (by omega), hos, hoe,
        gPositions_eq_nil_of_le cS cE strand tl _ hvtl (by omega)]
      rcases hstr with hstr | hstr <;> subst hstr
      · refine ⟨s + (cS - (running + 1)), s + (cE - (running + 1)), ?_, by omega, by omega⟩
        norm_num
      · refine ⟨(e - (cS - (running + 1))) ⊓ (e - (cE - (running + 1))),
          (e - (cS - (running + 1))) ⊔ (e - (cE - (running + 1))), ?_, by omega, by omega⟩
        norm_num
    · -- the codon is contained in a later exon: the head contributes nothing
      have hlb := cdsSpans_lower_bound tl (running + (e - s + 1)) hvtl sp hsp
      rw [gPositions_cons, if_neg (by omega)]
      exact ih _ hvtl ⟨sp, hsp, hsp1, hsp2⟩

/-! ## Claim theorems: C1, C4, C5 -/

/-- C1: for every single-exon gene model whose sole exon `(s,e)` has length
`e-s+1 ≥ 3`, `aa_to_genomic_from_exons` at amino-acid position 1 returns the
length-3 interval anchored at the exon's first transcript base: `(s, s+2)` on
strand `+1` and `(e-2, e)` on strand `-1`. -/
theorem single_exon_aa1_codon (s e : Int) (h : 3 ≤ e - s + 1) :
    aa_to_genomic_from_exons [(s, e)] 1 1 = some (s, s + 2) ∧
      aa_to_genomic_from_exons [(s, e)] 1 (-1) = some (e - 2, e) := by
  have hos : max (0 + 1 : Int) ((1 - 1) * 3 + 1) = 1 := by omega
  have hoe : min (0 + (e - s + 1) : Int) ((1 - 1) * 3 + 1 + 2) = 3 := by omega
  have h1 : min e (e - 2) = e - 2 := by omega
  have h2 : max e (e - 2) = e := by omega
  constructor <;>
  · simp only [aa_to_genomic_from_exons, gPositions_cons, hos, hoe, gPositions]
    norm_num [h1, h2]
    rfl

/-- Witness for C1 at the spec's concrete scenario: exon `(100,300)` gives codon
interval `(100,102)` on strand `+1` and `(298,300)` on strand `-1`. -/
theorem single_exon_aa1_codon_witness :
    aa_to_genomic_from_exons [(100, 300)] 1 1 = some (100, 102) ∧
      aa_to_genomic_from_exons [(100, 300)] 1 (-1) = some (298, 300) := by
  have h := single_exon_aa1_codon 100 300 (by decide)
  exact ⟨h.1.trans (by decide), h.2.trans (by decide)⟩

/-- C5: `aa_to_genomic_from_exons` fails (models `CodonNotFoundError`, raised as
`ValueError`) if and only if the codon's CDS-relative span
`[(aa-1)*3+1, (aa-1)*3+3]` overlaps no exon's CDS-relative span; otherwise it
returns an interval. -/
theorem aa_to_genomic_none_iff_no_overlap (exons : List (Int × Int)) (aa strand : Int) :
    aa_to_genomic_from_exons exons aa strand = none ↔
      ∀ sp ∈ cdsSpans 0 exons, min sp.2 ((aa - 1) * 3 + 3) < max sp.1 ((aa - 1) * 3 + 1) := by
  rw [← gPositions_eq_nil_iff ((aa - 1) * 3 + 1) ((aa - 1) * 3 + 3) strand exons 0,
    ← sortPairs_eq_nil_iff]
  have h3 : (aa - 1) * 3 + 1 + 2 = (aa - 1) * 3 + 3 := by omega
  simp only [aa_to_genomic_from_exons, h3]
  constructor
  · intro h
    cases hs : sortPairs (gPositions ((aa - 1) * 3 + 1) ((aa - 1) * 3 + 3) strand exons 0) with
    | nil => rfl
    | cons p rest => rw [hs] at h; simp at h
  · intro h; rw [h]

/-- C4: whenever the codon of amino-acid position `aa ≥ 1` lies wholly inside a
single exon's CDS-relative span (exons genomically valid, strand `±1`),
`aa_to_genomic_from_exons` returns an interval `(g1, g2)` with `g1 ≤ g2` and
width exactly 3. -/
theorem aa_to_genomic_contained_codon_length (exons : List (Int × Int)) (aa strand : Int)
    (hval : ∀ p ∈ exons, p.1 ≤ p.2) (hstr : strand = 1 ∨ strand = -1) (_haa : 1 ≤ aa)
    (hin : ∃ sp ∈ cdsSpans 0 exons, sp.1 ≤ (aa - 1) * 3 + 1 ∧ (aa - 1) * 3 + 3 ≤ sp.2) :
    ∃ g1 g2, aa_to_genomic_from_exons exons aa strand = some (g1, g2) ∧
      g1 ≤ g2 ∧ g2 - g1 + 1 = 3 := by
  have h3 : (aa - 1) * 3 + 1 + 2 = (aa - 1) * 3 + 3 := by omega
  obtain ⟨g1, g2, hg, hle, hw⟩ :=
    gPositions_single_of_contained ((aa - 1) * 3 + 1) ((aa - 1) * 3 + 3) strand exons 0
      hval hstr (by omega) hin
  refine ⟨g1, g2, ?_, hle, by omega⟩
  simp only [aa_to_genomic_from_exons, h3, hg]
  simp [sortPairs, List.insertionSort, List.orderedInsert, mergeFold]

/-- Witness for C4: exon list `[(100,300)]`, amino-acid position 2, strand `+1`
(codon CDS span `[4,6]` inside the exon span `[1,201]`). -/
theorem aa_to_genomic_contained_codon_length_witness :
    ∃ g1 g2, aa_to_genomic_from_exons [(100, 300)] 2 1 = some (g1, g2) ∧
      g1 ≤ g2 ∧ g2 - g1 + 1 = 3 :=
  aa_to_genomic_contained_codon_length [(100, 300)] 2 1 (by decide) (Or.inl rfl) (by decide)
    (by decide)

/-! ### Fragment width accounting (for C10) -/

/-- Total genomic width of a list of fragments. -/
def fragWidthSum (l : List (Int × Int)) : Int :=
  (l.map (fun p => p.2 - p.1 + 1)).sum

/-- The total CDS length of a valid exon list is nonnegative. -/
theorem totalCdsLen_nonneg (exons : List (Int × Int)) (hval : ∀ p ∈ exons, p.1 ≤ p.2) :
    0 ≤ totalCdsLen exons := by
  induction exons with
  | nil => simp [totalCdsLen]
  | cons hd tl ih =>
    have h1 : hd.1 ≤ hd.2 := hval hd (List.mem_cons_self _ _)
    have h2 := ih (fun p hp => hval p (List.mem_cons_of_mem _ hp))
    simp only [totalCdsLen, List.map_cons, List.sum_cons] at h2 ⊢
    omega

/-- The fragments' genomic widths sum to the size of the intersection of the
codon span with the exons' combined CDS-relative range: each overlap translates
to a genomic range of exactly its CDS width, on either strand. -/
theorem fragWidthSum_gPositions (cS cE strand : Int) (exons : List (Int × Int)) (running : Int)
    (hval : ∀ p ∈ exons, p.1 ≤ p.2) (hstr : strand = 1 ∨ strand = -1) :
    fragWidthSum (gPositions cS cE strand exons running) =
      max 0 (min (running + totalCdsLen exons) cE - max (running + 1) cS + 1) := by
  induction exons generalizing running with
  | nil => simp [gPositions, fragWidthSum, totalCdsLen]; omega
  | cons hd tl ih =>
    obtain ⟨s, e⟩ := hd
    have hse : s ≤ e := hval (s, e) (List.mem_cons_self _ _)
    have hvtl : ∀ p ∈ tl, p.1 ≤ p.2 := fun p hp => hval p (List.mem_cons_of_mem _ hp)
    have htl : 0 ≤ totalCdsLen tl := totalCdsLen_nonneg tl hvtl
    have htot : totalCdsLen ((s, e) :: tl) = (e - s + 1) + totalCdsLen tl := by
      simp [totalCdsLen]
    rw [gPositions_cons]
    by_cases hcond : max (running + 1) cS ≤ min (running + (e - s + 1)) cE
    · rw [if_pos hcond]
      have hw : fragWidthSum
          ((if strand == 1 then
            (s + (max (running + 1) cS - (running + 1)),
             s + (min (running + (e - s + 1)) cE - (running + 1)))
          else
            (min (e - (max (running + 1) cS - (running + 1)))
                 (e - (min (running + (e - s + 1)) cE - (running + 1))),
             max (e - (max (running + 1) cS - (running + 1)))
                 (e - (min (running + (e - s + 1)) cE - (running + 1)))))
            :: gPositions cS cE strand tl (running + (e - s + 1))) =
          (min (running + (e - s + 1)) cE - max (running + 1) cS + 1) +
            fragWidthSum (gPositions cS cE strand tl (running + (e - s + 1))) := by
        rcases hstr with hstr | hstr <;> subst hstr <;>
          simp only [fragWidthSum, List.map_cons, List.sum_cons] <;> norm_num <;> omega
      rw [hw, ih _ hvtl, htot]
      omega
    · rw [if_neg hcond, ih _ hvtl, htot]
      omega

/-- Every fragment produced by the loop is min/max-normalised: `fst ≤ snd`. -/
theorem gPositions_fst_le_snd (cS cE strand : Int) (exons : List (Int × Int)) (running : Int)
    (hstr : strand = 1 ∨ strand = -1) :
    ∀ p ∈ gPositions cS cE strand exons running, p.1 ≤ p.2 := by
  induction exons generalizing running with
  | nil => intro p hp; simp [gPositions] at hp
  | cons hd tl ih =>
    obtain ⟨s, e⟩ := hd
    intro p hp
    rw [gPositions_cons] at hp
    by_cases hcond : max (running + 1) cS ≤ min (running + (e - s + 1)) cE
    · rw [if_pos hcond] at hp
      rcases List.mem_cons.mp hp with hp | hp
      · subst hp
        rcases hstr with hstr | hstr <;> subst hstr <;> norm_num <;> omega
      · exact ih _ p hp
    · rw [if_neg hcond] at hp
      exact ih _ p hp

/-- A fragment list whose fragments all have positive width is no longer than
its total width. -/
theorem length_le_fragWidthSum (l : List (Int × Int)) (h : ∀ p ∈ l, p.1 ≤ p.2) :
    (l.length : Int) ≤ fragWidthSum l := by
  induction l with
  | nil => simp [fragWidthSum]
  | cons hd tl ih =>
    have h1 : hd.1 ≤ hd.2 := h hd (List.mem_cons_self _ _)
    have h2 := ih (fun p hp => h p (List.mem_cons_of_mem _ hp))
    simp only [fragWidthSum, List.map_cons, List.sum_cons, List.length_cons] at h2 ⊢
    push_cast
    omega

/-- Sorting preserves the total fragment width. -/
theorem fragWidthSum_sortPairs (l : List (Int × Int)) :
    fragWidthSum (sortPairs l) = fragWidthSum l :=
  ((List.perm_insertionSort pairLex l).map _).sum_eq

/-- C10 (implicit): when the codon's CDS-relative start lies inside the
concatenated CDS but its end extends beyond it, `aa_to_genomic_from_exons`
does not raise: it returns a truncated interval of width 1 or 2 (strictly less
than 3). -/
theorem aa_to_genomic_truncated_tail_codon (exons : List (Int × Int)) (aa strand : Int)
    (hval : ∀ p ∈ exons, p.1 ≤ p.2) (hstr : strand = 1 ∨ strand = -1) (haa : 1 ≤ aa)
    (hs : (aa - 1) * 3 + 1 ≤ totalCdsLen exons)
    (he : totalCdsLen exons < (aa - 1) * 3 + 3) :
    ∃ g1 g2, aa_to_genomic_from_exons exons aa strand = some (g1, g2) ∧
      g1 ≤ g2 ∧ g2 - g1 + 1 < 3 := by
  have h3 : (aa - 1) * 3 + 1 + 2 = (aa - 1) * 3 + 3 := by omega
  set cS := (aa - 1) * 3 + 1 with hcS
  set cE := (aa - 1) * 3 + 3 with hcE
  set gps := gPositions cS cE strand exons 0 with hgps
  have hsum : fragWidthSum gps = totalCdsLen exons - cS + 1 := by
    rw [hgps, fragWidthSum_gPositions cS cE strand exons 0 hval hstr]
    omega
  have hmem : ∀ p ∈ gps, p.1 ≤ p.2 := gPositions_fst_le_snd cS cE strand exons 0 hstr
  have hmemS : ∀ p ∈ sortPairs gps, p.1 ≤ p.2 := by
    intro p hp
    exact hmem p ((List.perm_insertionSort pairLex gps).mem_iff.mp hp)
  have hsumS : fragWidthSum (sortPairs gps) = totalCdsLen exons - cS + 1 := by
    rw [fragWidthSum_sortPairs]; exact hsum
  have hlenS : ((sortPairs gps).length : Int) ≤ totalCdsLen exons - cS + 1 := by
    rw [← hsumS]; exact length_le_fragWidthSum _ hmemS
  have hsorted : List.Sorted pairLex (sortPairs gps) := List.sorted_insertionSort pairLex gps
  have hres : aa_to_genomic_from_exons exons aa strand =
      match sortPairs gps with
      | [] => none
      | p :: rest => some (mergeFold p.1 p.2 rest) := by
    simp only [aa_to_genomic_from_exons, ← hcS, h3, ← hcE, ← hgps]
  match hS : sortPairs gps with
  | [] =>
    exfalso
    rw [hS] at hsumS
    simp [fragWidthSum] at hsumS
    omega
  | [p] =>
    rw [hS] at hsumS hmemS
    have hp1 : p.1 ≤ p.2 := hmemS p (List.mem_cons_self _ _)
    simp only [fragWidthSum, List.map_cons, List.map_nil, List.sum_cons, List.sum_nil] at hsumS
    refine ⟨p.1, p.2, ?_, hp1, by omega⟩
    rw [hres, hS]
    simp [mergeFold]
  | p :: q :: rest =>
    rw [hS] at hsumS hmemS hlenS hsorted
    have hrest : rest = [] := by
      have hw2 : totalCdsLen exons - cS + 1 ≤ 2 := by omega
      cases rest with
      | nil => rfl
      | cons r rs =>
        exfalso
        simp only [List.length_cons] at hlenS
        push_cast at hlenS
        omega
    subst hrest
    have hp1 : p.1 ≤ p.2 := hmemS p (List.mem_cons_self _ _)
    have hq1 : q.1 ≤ q.2 := hmemS q (List.mem_cons_of_mem _ (List.mem_cons_self _ _))
    have hlex : pairLex p q := (List.pairwise_cons.mp hsorted).1 q (List.mem_cons_self _ _)
    have hpq : p.1 ≤ q.1 := by unfold pairLex at hlex; omega
    simp only [fragWidthSum, List.map_cons, List.map_nil, List.sum_cons, List.sum_nil] at hsumS
    rw [hres, hS]
    simp only [mergeFold]
    by_cases hadj : q.1 ≤ p.2 + 1
    · rw [if_pos hadj]
      exact ⟨p.1, max p.2 q.2, by simp [mergeFold], by omega, by omega⟩
    · rw [if_neg hadj]
      exact ⟨p.1, p.2, by simp [mergeFold], hp1, by omega⟩

/-- Witness for C10: single exon `(100,104)` (CDS length 5) and amino-acid
position 2: the codon CDS span `[4,6]` starts inside but overruns the CDS. -/
theorem aa_to_genomic_truncated_tail_codon_witness :
    ∃ g1 g2, aa_to_genomic_from_exons [(100, 104)] 2 1 = some (g1, g2) ∧
      g1 ≤ g2 ∧ g2 - g1 + 1 < 3 :=
  aa_to_genomic_truncated_tail_codon [(100, 104)] 2 1 (by decide) (Or.inl rfl) (by decide)
    (by decide) (by decide)

/-! ## Claim theorems: C9, C2 -/

/-- C9: `_revcom` is an involution on sequences over the uppercase alphabet
`{A, C, G, T}`. -/
theorem revcom_involutive (s : List Char)
    (h : ∀ c ∈ s, c = 'A' ∨ c = 'C' ∨ c = 'G' ∨ c = 'T') :
    _revcom (_revcom s) = s := by
  have hnorm : _revcom (_revcom s) =
      s.map (fun c => complementBase (Char.toUpper (complementBase (Char.toUpper c)))) := by
    simp [_revcom, List.map_reverse, List.reverse_reverse, List.map_map, Function.comp_def]
  rw [hnorm]
  have hkey : ∀ c ∈ s,
      complementBase (Char.toUpper (complementBase (Char.toUpper c))) = c := by
    intro c hc
    rcases h c hc with hc' | hc' | hc' | hc' <;> subst hc' <;> decide
  rw [List.map_congr_left hkey]
  simp

/-- Witness for C9 on the concrete sequence `ACGT`. -/
theorem revcom_involutive_witness :
    _revcom (_revcom ['A', 'C', 'G', 'T']) = ['A', 'C', 'G', 'T'] :=
  revcom_involutive ['A', 'C', 'G', 'T'] (by decide)

/-- C2 counterexample: for exon list `[(100,149),(200,260)]` on strand `+1`,
amino-acid position 17 (codon CDS span `[49,51]`) produces the two genuinely
non-contiguous genomic fragments `(148,149)` and `(200,200)` (gap 51 > 1), yet
`aa_to_genomic_from_exons` returns `some (148,149)` — the first fragment only —
with no error and no flag.  This refutes the claim that a genuinely
non-contiguous fragment set is flagged rather than silently dropped: the second
fragment is silently discarded. -/
theorem nonContiguous_fragments_silently_dropped :
    gPositions 49 51 1 [(100, 149), (200, 260)] 0 = [(148, 149), (200, 200)] ∧
      aa_to_genomic_from_exons [(100, 149), (200, 260)] 17 1 = some (148, 149) := by
  decide

/-- C2 amended: for a two-exon gene model `[(a,b),(c,d)]` in genomic order on
strand `+1`, when the codon of amino-acid position `aa` straddles the exon
junction, the per-exon fragments are merged into the single union span when
they are contiguous or adjacent in genomic coordinates (`c ≤ b+1`); when the
genomic gap exceeds 1 the second fragment is silently discarded and only the
first exon's fragment is reported (no flag and no error is raised). -/
theorem two_exon_junction_codon_merge (a b c d aa : Int)
    (hab : a ≤ b) (hcd : c ≤ d) (hbc : b < c)
    (h1 : 1 ≤ (aa - 1) * 3 + 1)
    (hsp : (aa - 1) * 3 + 1 ≤ b - a + 1)
    (hmid : b - a + 1 < (aa - 1) * 3 + 3)
    (hend : (aa - 1) * 3 + 3 ≤ (b - a + 1) + (d - c + 1)) :
    (c ≤ b + 1 →
      aa_to_genomic_from_exons [(a, b), (c, d)] aa 1 =
        some (a + (aa - 1) * 3, c + ((aa - 1) * 3 + 3 - (b - a + 1)) - 1)) ∧
    (b + 1 < c →
      aa_to_genomic_from_exons [(a, b), (c, d)] aa 1 = some (a + (aa - 1) * 3, b)) := by
  have h3 : (aa - 1) * 3 + 1 + 2 = (aa - 1) * 3 + 3 := by omega
  set cS := (aa - 1) * 3 + 1 with hcS
  set cE := (aa - 1) * 3 + 3 with hcE
  have hgps : gPositions cS cE 1 [(a, b), (c, d)] 0 =
      [(a + cS - 1, b), (c, c + (cE - (b - a + 1)) - 1)] := by
    have hc1 : max (0 + 1 : Int) cS ≤ min (0 + (b - a + 1)) cE := by omega
    have hc2 : max (0 + (b - a + 1) + 1 : Int) cS ≤ min (0 + (b - a + 1) + (d - c + 1)) cE := by
      omega
    rw [gPositions_cons, if_pos hc1, gPositions_cons, if_pos hc2]
    simp only [gPositions, List.cons.injEq, Prod.mk.injEq]
    norm_num
    omega
  have hlex : pairLex (a + cS - 1, b) (c, c + (cE - (b - a + 1)) - 1) := by
    unfold pairLex; simp only; omega
  have hsort : sortPairs [(a + cS - 1, b), (c, c + (cE - (b - a + 1)) - 1)] =
      [(a + cS - 1, b), (c, c + (cE - (b - a + 1)) - 1)] := by
    simp only [sortPairs, List.insertionSort, List.orderedInsert]
    rw [if_pos hlex]
  have hres : aa_to_genomic_from_exons [(a, b), (c, d)] aa 1 =
      some (mergeFold (a + cS - 1) b [(c, c + (cE - (b - a + 1)) - 1)]) := by
    simp only [aa_to_genomic_from_exons, ← hcS, h3, ← hcE, hgps, hsort]
  constructor
  · intro hadj
    rw [hres]
    simp only [mergeFold, if_pos (show c ≤ b + 1 by omega)]
    rw [sup_eq_right.mpr (show b ≤ c + (cE - (b - a + 1)) - 1 by omega)]
    simp only [Option.some.injEq, Prod.mk.injEq, and_true, true_and]
    omega
  · intro hgap
    rw [hres]
    simp only [mergeFold, if_neg (show ¬c ≤ b + 1 by omega)]
    simp only [Option.some.injEq, Prod.mk.injEq, and_true, true_and]
    omega

/-- Witness for the amended C2 at the adjacent-junction scenario: exons
`(100,149)` and `(150,260)`, amino-acid position 17 (codon CDS span `[49,51]`
straddling the junction) yields the single merged span `(148,150)`. -/
theorem two_exon_junction_codon_merge_witness :
    aa_to_genomic_from_exons [(100, 149), (150, 260)] 17 1 = some (148, 150) :=
  ((two_exon_junction_codon_merge 100 149 150 260 17 (by decide) (by decide) (by decide)
    (by decide) (by decide) (by decide) (by decide)).1 (by decide)).trans (by decide)

/-! ## Transcript-order exon sorting (`find_cds_for_gene`, lines 117-122)

`exons.sort(key=lambda x: x[0])` and
`exons.sort(key=lambda x: x[0], reverse=True)`: Python's `list.sort` is a
stable sort; with `reverse=True` elements with equal keys keep their original
order (the comparisons are reversed, not the output).  A stable sort by the
`x[0]` key is modelled by insertion sort with the corresponding total
preorder. -/

/-- Ascending order on the exon start coordinate (the `key=lambda x: x[0]`
sort of line 120). -/
def startLe (a b : Int × Int) : Prop := a.1 ≤ b.1

/-- Descending order on the exon start coordinate (the `reverse=True` sort of
line 122). -/
def startGe (a b : Int × Int) : Prop := b.1 ≤ a.1

instance : DecidableRel startLe := fun a b => by
  unfold startLe; infer_instance

instance : DecidableRel startGe := fun a b => by
  unfold startGe; infer_instance

instance : IsTotal (Int × Int) startLe :=
  ⟨by intro a b; unfold startLe; omega⟩

instance : IsTrans (Int × Int) startLe :=
  ⟨by intro a b c; unfold startLe; omega⟩

instance : IsTotal (Int × Int) startGe :=
  ⟨by intro a b; unfold startGe; omega⟩

instance : IsTrans (Int × Int) startGe :=
  ⟨by intro a b c; unfold startGe; omega⟩

/-- Strictly-descending order on the start coordinate (used to show sorted
lists with pairwise-distinct starts are unique). -/
def startGt (a b : Int × Int) : Prop := b.1 < a.1

instance : IsAntisymm (Int × Int) startGt :=
  ⟨by intro a b h1 h2; unfold startGt at h1 h2; omega⟩

/-- Lines 117-122: order the exon `(start, end)` pairs in transcript order —
ascending genomic start on strand `+1`, stable-descending genomic start
otherwise. -/
def transcriptOrder (strand : Int) (exons : List (Int × Int)) : List (Int × Int) :=
  if strand == 1 then List.insertionSort startLe exons
  else List.insertionSort startGe exons

/-- C8 counterexample: for the exon set `{(100,150), (100,120)}` (two segments
sharing a start coordinate, listed in this order), the strand `-1` transcript
order is NOT the reverse of the strand `+1` order: both sorts are stable on
the equal keys, so both return `[(100,150), (100,120)]`, while the reverse of
the `+1` order is `[(100,120), (100,150)]`. -/
theorem transcriptOrder_minus_ne_reverse_plus :
    transcriptOrder (-1) [(100, 150), (100, 120)] = [(100, 150), (100, 120)] ∧
      (transcriptOrder 1 [(100, 150), (100, 120)]).reverse = [(100, 120), (100, 150)] ∧
      transcriptOrder (-1) [(100, 150), (100, 120)] ≠
        (transcriptOrder 1 [(100, 150), (100, 120)]).reverse := by
  decide

/-- C8 amended: for every exon set whose start coordinates are pairwise
distinct, the strand `-1` transcript order is exactly the reverse of the
strand `+1` transcript order. -/
theorem transcriptOrder_minus_eq_reverse_plus (exons : List (Int × Int))
    (hdist : exons.Pairwise (fun a b => a.1 ≠ b.1)) :
    transcriptOrder (-1) exons = (transcriptOrder 1 exons).reverse := by
  have hsymm : ∀ {x y : Int × Int}, x.1 ≠ y.1 → y.1 ≠ x.1 := fun h => h.symm
  have hA : List.Sorted startLe (List.insertionSort startLe exons) :=
    List.sorted_insertionSort startLe exons
  have hB : List.Sorted startGe (List.insertionSort startGe exons) :=
    List.sorted_insertionSort startGe exons
  have hpermA : (List.insertionSort startLe exons).Perm exons :=
    List.perm_insertionSort startLe exons
  have hpermB : (List.insertionSort startGe exons).Perm exons :=
    List.perm_insertionSort startGe exons
  have hdA : (List.insertionSort startLe exons).Pairwise (fun a b => a.1 ≠ b.1) :=
    (hpermA.pairwise_iff hsymm).mpr hdist
  have hdB : (List.insertionSort startGe exons).Pairwise (fun a b => a.1 ≠ b.1) :=
    (hpermB.pairwise_iff hsymm).mpr hdist
  have hstrictA : (List.insertionSort startLe exons).Pairwise (fun a b => a.1 < b.1) :=
    (hA.and hdA).imp (fun h => by
      obtain ⟨h1, h2⟩ := h
      unfold startLe at h1
      omega)
  have hstrictB : List.Sorted startGt (List.insertionSort startGe exons) :=
    (hB.and hdB).imp (fun h => by
      obtain ⟨h1, h2⟩ := h
      unfold startGe at h1
      unfold startGt
      omega)
  have hrevA : List.Sorted startGt (List.insertionSort startLe exons).reverse := by
    rw [List.Sorted, List.pairwise_reverse]
    exact hstrictA.imp (fun h => by unfold startGt; omega)
  have hperm : (List.insertionSort startGe exons).Perm
      (List.insertionSort startLe exons).reverse :=
    (hpermB.trans hpermA.symm).trans (List.reverse_perm _).symm
  have hmain : List.insertionSort startGe exons =
      (List.insertionSort startLe exons).reverse :=
    List.eq_of_perm_of_sorted hperm hstrictB hrevA
  simp only [transcriptOrder]
  norm_num
  exact hmain

/-- Witness for the amended C8: exons `[(200,260), (100,150)]` have distinct
starts; the strand `-1` order is the reverse of the strand `+1` order. -/
theorem transcriptOrder_minus_eq_reverse_plus_witness :
    transcriptOrder (-1) [(200, 260), (100, 150)] =
      (transcriptOrder 1 [(200, 260), (100, 150)]).reverse :=
  transcriptOrder_minus_eq_reverse_plus [(200, 260), (100, 150)] (by decide)

/-! ## Gene model locator (`find_cds_for_gene`, lines 21-126)

The file-reading and tab-splitting of lines 34-44 is I/O plumbing; the locator
is embedded over the list of already-parsed annotation records (one per
retained data line, in file order).  Python string operations are modelled
over `List Char`; Python's insertion-ordered `dict` is modelled as an
association list extended at the back; Python's `set` of strings is modelled
as a duplicate-free list (only emptiness, membership and the final `sorted()`
view of the set are observable). -/

/-- Python's substring test `needle in hay`. -/
def containsSub : List Char → List Char → Bool
  | needle, [] => needle.isEmpty
  | needle, c :: rest => needle.isPrefixOf (c :: rest) || containsSub needle rest

/-- `query in s` on strings. -/
def pyIn (needle hay : String) : Bool :=
  containsSub needle.toList hay.toList

/-- `s.startswith(pre)` on strings. -/
def pyStartswith (s pre : String) : Bool :=
  pre.toList.isPrefixOf s.toList

/-- A parsed annotation record: the columns of one annotation line that the
locator reads (`source`, `score` and `phase` are unpacked by the code but never
used), with the attribute column already parsed into key/value pairs in file
order. -/
structure GffRec where
  seqid : String
  ftype : String
  start : Int
  stop : Int
  strandS : String
  attrs : List (String × String)
deriving DecidableEq

/-- One CDS segment as recorded under its parent:
`(seqid, start, end, strand_s)` (line 59). -/
structure CdsEntry where
  seqid : String
  start : Int
  stop : Int
  strandS : String
deriving DecidableEq

/-- `attrs.get(k)`: Python dict lookup, where a duplicate key in the attribute
column overwrites the earlier binding. -/
def getAttr (attrs : List (String × String)) (k : String) : Option String :=
  attrs.reverse.lookup k

/-- Python truthiness of an optional string (`None` and `""` are falsy). -/
def truthy : Option String → Bool
  | some s => !s.isEmpty
  | none => false

/-- Python `a or b` on optional strings: `a` if truthy, else `b`. -/
def pyOrStr (a b : Option String) : Option String :=
  if truthy a then a else b

/-- `parent.split(",")` (line 58), keeping empty pieces as Python does. -/
def splitCommasChars : List Char → List Char → List String
  | [], acc => [String.mk acc.reverse]
  | c :: cs, acc =>
    if c == ',' then String.mk acc.reverse :: splitCommasChars cs []
    else splitCommasChars cs (c :: acc)

/-- `parent.split(",")` on a string. -/
def splitCommas (s : String) : List String :=
  splitCommasChars s.toList []

/-- Lines 55-64: the parent identifiers a CDS record is filed under —
`Parent` or `Gene` or `Transcript` (Python `or`, so empty strings fall
through), split on commas; if none is truthy, fall back to a truthy `ID`. -/
def recParents (r : GffRec) : List String :=
  let fallback : List String :=
    match getAttr r.attrs "ID" with
    | some cid => if cid.isEmpty then [] else [cid]
    | none => []
  match pyOrStr (pyOrStr (getAttr r.attrs "Parent") (getAttr r.attrs "Gene"))
      (getAttr r.attrs "Transcript") with
  | some p => if p.isEmpty then fallback else splitCommas p
  | none => fallback

/-- `cds_by_parent[p].append(entry)` on an insertion-ordered index. -/
def addCds : List (String × List CdsEntry) → String → CdsEntry →
    List (String × List CdsEntry)
  | [], p, e => [(p, [e])]
  | (q, es) :: rest, p, e =>
    if q == p then (q, es ++ [e]) :: rest else (q, es) :: addCds rest p e

/-- Lines 54-64 over the whole file: index every CDS record's segment under
each of its parent identifiers, in file order. -/
def buildCdsIndex (recs : List GffRec) : List (String × List CdsEntry) :=
  recs.foldl (fun idx r =>
    if r.ftype == "CDS" then
      (recParents r).foldl
        (fun idx2 p => addCds idx2 p ⟨r.seqid, r.start, r.stop, r.strandS⟩) idx
    else idx) []

/-- The fixed priority-ordered attribute keys of line 47. -/
def attrKeys : List String :=
  ["ID", "Parent", "Name", "gene_id", "transcript_id", "Dbxref"]

/-- `set.add` on the duplicate-free list model of a string set. -/
def setAdd (l : List String) (s : String) : List String :=
  if l.contains s then l else l ++ [s]

/-- Lines 46-51: every `key=value` diagnostic string for an inspected attribute
whose truthy value contains the query. -/
def collectMatchingAttrs (recs : List GffRec) (query : String) : List String :=
  recs.foldl (fun acc r =>
    attrKeys.foldl (fun acc2 k =>
      match getAttr r.attrs k with
      | some v => if !v.isEmpty && pyIn query v then setAdd acc2 (k ++ "=" ++ v) else acc2
      | none => acc2) acc) []

/-- Lines 66-72: if no attribute matched, fall back to `Parent_contains=p`
diagnostics for every indexed parent containing the query. -/
def fullMatchingAttrs (recs : List GffRec) (query : String) : List String :=
  let mattrs := collectMatchingAttrs recs query
  if mattrs.isEmpty then
    (buildCdsIndex recs).foldl (fun acc pe =>
      if pyIn query pe.1 then setAdd acc ("Parent_contains=" ++ pe.1) else acc) []
  else mattrs

/-- The selection loop of lines 79-85: walk the parent index in insertion
order; under the outer disjunctive guard, choose and stop at the first parent
containing the query (the diagnostics-only branch chooses nothing). -/
def loop1 (query : String) (mattrs : List String) :
    List (String × List CdsEntry) → Option (String × List CdsEntry)
  | [] => none
  | (p, es) :: rest =>
    if pyIn query p || mattrs.any (fun m => pyIn query m) then
      if pyIn query p then some (p, es) else loop1 query mattrs rest
    else loop1 query mattrs rest

/-- The fallback loop of lines 88-94: first parent containing the query. -/
def loop2 (query : String) :
    List (String × List CdsEntry) → Option (String × List CdsEntry)
  | [] => none
  | (p, es) :: rest => if pyIn query p then some (p, es) else loop2 query rest

/-- The fallback loop of lines 97-102: first parent starting with the query. -/
def loop3 (query : String) :
    List (String × List CdsEntry) → Option (String × List CdsEntry)
  | [] => none
  | (p, es) :: rest => if pyStartswith p query then some (p, es) else loop3 query rest

/-- Lines 74-102 combined: the chosen parent and its `cds_list` (`none` models
`chosen is None` with an empty `cds_list`). -/
def chooseCds (query : String) (mattrs : List String)
    (idx : List (String × List CdsEntry)) : Option (String × List CdsEntry) :=
  let r2 :=
    match loop1 query mattrs idx with
    | some x => some x
    | none => loop2 query idx
  match r2 with
  | some (p, es) =>
    if es.isEmpty then
      match loop3 query idx with
      | some y => some y
      | none => some (p, es)
    else some (p, es)
  | none => loop3 query idx

/-- Byte-wise lexicographic string order (Python's `sorted` on strings). -/
def charListLe : List Char → List Char → Bool
  | [], _ => true
  | _ :: _, [] => false
  | a :: as, b :: bs =>
    if a.val < b.val then true else if b.val < a.val then false else charListLe as bs

/-- The `Prop` form of `charListLe`, for sorting. -/
def strLeP (a b : String) : Prop := charListLe a.toList b.toList = true

instance : DecidableRel strLeP := fun a b => by
  unfold strLeP; infer_instance

/-- `sorted(matching_attrs)` (lines 106 and 126). -/
def sortStrings (l : List String) : List String :=
  List.insertionSort strLeP l

/-- Result of `find_cds_for_gene`: the `(None, None, None, diags)` return of
line 106, the `ValueError` raise of line 112, or the
`(chrom, strand, exons, diags)` return of line 126. -/
inductive FindResult where
  | notFound (diags : List String)
  | inconsistent
  | found (chrom : String) (strand : Int) (exons : List (Int × Int)) (diags : List String)
deriving DecidableEq

/-- `find_cds_for_gene(gff, query)` (lines 21-126) over parsed records. -/
def find_cds_for_gene (recs : List GffRec) (query : String) : FindResult :=
  let idx := buildCdsIndex recs
  let mattrs := fullMatchingAttrs recs query
  match chooseCds query mattrs idx with
  | none => .notFound (sortStrings mattrs)
  | some (_, cds_list) =>
    match cds_list with
    | [] => .notFound (sortStrings mattrs)
    | e0 :: _ =>
      if 1 < (cds_list.map CdsEntry.seqid).dedup.length ∨
          1 < (cds_list.map CdsEntry.strandS).dedup.length then
        .inconsistent
      else
        .found e0.seqid (if e0.strandS == "+" then 1 else -1)
          (transcriptOrder (if e0.strandS == "+" then 1 else -1)
            (cds_list.map (fun e => (e.start, e.stop))))
          (sortStrings mattrs)

/-- Prepending an element to a list of its duplicates dedups to the singleton. -/
theorem dedup_cons_all_eq {α : Type _} [DecidableEq α] (x : α) (l : List α)
    (h : ∀ y ∈ l, y = x) : (x :: l).dedup = [x] := by
  induction l with
  | nil => simp
  | cons y t ih =>
    have hy : y = x := h y (List.mem_cons_self _ _)
    subst hy
    rw [List.dedup_cons_of_mem (List.mem_cons_self _ _)]
    exact ih (fun z hz => h z (List.mem_cons_of_mem _ hz))

/-! ## Claim theorems: C3, C6 -/

/-- C3 counterexample: with annotation records
`Parent=GENE.12 (exons (10,20))` before `Parent=GENE.1 (exons (100,300))`,
querying `GENE.1` — which exactly equals the second parent — returns the exon
set `[(10,20)]` of `GENE.12`, not the exact match's `[(100,300)]`: the code
picks the first parent in file order that merely contains the query as a
substring, so exact equality does not take precedence and the result depends
on the order of the parents in the file. -/
theorem exact_parent_match_loses_to_earlier_superstring :
    find_cds_for_gene
        [⟨"chr1", "CDS", 10, 20, "+", [("Parent", "GENE.12")]⟩,
         ⟨"chr1", "CDS", 100, 300, "+", [("Parent", "GENE.1")]⟩] "GENE.1" =
      .found "chr1" 1 [(10, 20)] ["Parent=GENE.1", "Parent=GENE.12"] ∧
      find_cds_for_gene
        [⟨"chr1", "CDS", 10, 20, "+", [("Parent", "GENE.12")]⟩,
         ⟨"chr1", "CDS", 100, 300, "+", [("Parent", "GENE.1")]⟩] "GENE.1" ≠
      .found "chr1" 1 [(100, 300)] ["Parent=GENE.1", "Parent=GENE.12"] := by
  decide

/-- C3 amended: `find_cds_for_gene` returns the exon set of the first parent
identifier, in index (file) order, that contains the query as a substring —
whenever that parent's segments are consistent.  In particular an exactly
matching parent wins precisely when it is that first containing parent. -/
theorem first_containing_parent_exons_returned (recs : List GffRec) (query : String)
    (p : String) (e0 : CdsEntry) (tl : List CdsEntry)
    (hfind : loop1 query (fullMatchingAttrs recs query) (buildCdsIndex recs) =
      some (p, e0 :: tl))
    (hseq : ∀ e ∈ e0 :: tl, CdsEntry.seqid e = e0.seqid)
    (hstr2 : ∀ e ∈ e0 :: tl, CdsEntry.strandS e = e0.strandS) :
    find_cds_for_gene recs query =
      .found e0.seqid (if e0.strandS == "+" then 1 else -1)
        (transcriptOrder (if e0.strandS == "+" then 1 else -1)
          ((e0 :: tl).map (fun e => (e.start, e.stop))))
        (sortStrings (fullMatchingAttrs recs query)) := by
  have hch : chooseCds query (fullMatchingAttrs recs query) (buildCdsIndex recs) =
      some (p, e0 :: tl) := by
    simp only [chooseCds, hfind]
    simp
  have hs1 : ((e0 :: tl).map CdsEntry.seqid).dedup = [e0.seqid] := by
    rw [List.map_cons]
    refine dedup_cons_all_eq _ _ ?_
    intro y hy
    obtain ⟨e, he, rfl⟩ := List.mem_map.mp hy
    exact hseq e (List.mem_cons_of_mem _ he)
  have hs2 : ((e0 :: tl).map CdsEntry.strandS).dedup = [e0.strandS] := by
    rw [List.map_cons]
    refine dedup_cons_all_eq _ _ ?_
    intro y hy
    obtain ⟨e, he, rfl⟩ := List.mem_map.mp hy
    exact hstr2 e (List.mem_cons_of_mem _ he)
  simp only [find_cds_for_gene, hch]
  rw [if_neg (by rw [hs1, hs2]; simp)]

/-- Witness for the amended C3: a single record with `Parent=GENE.1`, queried
with exactly `GENE.1`, returns its exon list `[(100,300)]` (the spec's
single-CDS scenario). -/
theorem first_containing_parent_exons_returned_witness :
    find_cds_for_gene [⟨"chr7", "CDS", 100, 300, "+", [("Parent", "GENE.1")]⟩] "GENE.1" =
      .found "chr7" 1 [(100, 300)] ["Parent=GENE.1"] :=
  (first_containing_parent_exons_returned
    [⟨"chr7", "CDS", 100, 300, "+", [("Parent", "GENE.1")]⟩] "GENE.1" "GENE.1"
    ⟨"chr7", 100, 300, "+"⟩ [] (by decide) (by decide) (by decide)).trans (by decide)

/-- C6: whenever the chosen transcript's recorded CDS segments span more than
one sequence id or more than one strand symbol, `find_cds_for_gene` raises the
consistency `ValueError` (modelled `FindResult.inconsistent`) instead of
returning a gene model — the check sits on every path that reaches a chosen
`cds_list`, so it is never skipped. -/
theorem inconsistent_gene_model_fatal (recs : List GffRec) (query : String)
    (p : String) (es : List CdsEntry)
    (hch : chooseCds query (fullMatchingAttrs recs query) (buildCdsIndex recs) = some (p, es))
    (hbad : 1 < (es.map CdsEntry.seqid).dedup.length ∨
      1 < (es.map CdsEntry.strandS).dedup.length) :
    find_cds_for_gene recs query = .inconsistent := by
  cases es with
  | nil => simp at hbad
  | cons e0 tl =>
    simp only [find_cds_for_gene, hch]
    rw [if_pos hbad]

/-- Witness for C6: one parent `G1` with two CDS segments on different
sequence ids (`chr1` and `chr2`): the lookup is fatal. -/
theorem inconsistent_gene_model_fatal_witness :
    find_cds_for_gene
      [⟨"chr1", "CDS", 10, 20, "+", [("Parent", "G1")]⟩,
       ⟨"chr2", "CDS", 30, 40, "+", [("Parent", "G1")]⟩] "G1" = .inconsistent :=
  inconsistent_gene_model_fatal
    [⟨"chr1", "CDS", 10, 20, "+", [("Parent", "G1")]⟩,
     ⟨"chr2", "CDS", 30, 40, "+", [("Parent", "G1")]⟩] "G1" "G1"
    [⟨"chr1", 10, 20, "+"⟩, ⟨"chr2", 30, 40, "+"⟩] (by decide) (by decide)

/-! ## Reference sequence extractor (`sequence_for_pos`, lines 182-209)

The reference file is modelled as its list of lines.  `line.strip()` is char
level whitespace trimming; the header regex `^> *(\S+).*` yields the first
non-space token after the marker, and a header carrying no token makes the
Python code crash on `None[1]` (modelled `SeqResult.crash`); the final
`raise ValueError` is `SeqResult.err`.  Python slicing `seq[start-1:end]` is
modelled by `drop`/`take`, which coincides with Python for the 1-based
positive indices the claims quantify over (negative-index slicing is outside
the modelled domain). -/

/-- `line.strip()`. -/
def stripChars (l : List Char) : List Char :=
  ((l.dropWhile Char.isWhitespace).reverse.dropWhile Char.isWhitespace).reverse

/-- `s.lower()`. -/
def lowerChars (l : List Char) : List Char := l.map Char.toLower

/-- The token captured by `re.match(r'^> *(\S+).*', line)[1]`, when the match
succeeds. -/
def headerTok (l : List Char) : Option (List Char) :=
  match l with
  | '>' :: rest =>
    let tok := (rest.dropWhile (fun c => c == ' ')).takeWhile (fun c => !c.isWhitespace)
    if tok.isEmpty then none else some tok
  | _ => none

/-- `seq[start-1:end]` for 1-based `start ≤ end`. -/
def pySlice (s : List Char) (start stop : Int) : List Char :=
  (s.drop (start - 1).toNat).take (stop - start + 1).toNat

/-- Strand correction of the returned slice (lines 205-208). -/
def strandAdjust (strand : Int) (piece : List Char) : List Char :=
  if strand == 1 then piece else _revcom piece

/-- Result of `sequence_for_pos`: a returned sequence, the final `ValueError`,
or the crash on a token-less header line. -/
inductive SeqResult where
  | ok (s : List Char)
  | err
  | crash
deriving DecidableEq

/-- Whether a stripped line is a header line (`line.startswith('>')` after the
strip of line 196). -/
def isHeaderLine (l : List Char) : Bool :=
  match stripChars l with
  | '>' :: _ => true
  | _ => false

/-- The scanning loop of lines 194-208, carrying the `seek` flag and the
accumulated `seq` buffer (which is never reset between records). -/
def seqScan (chromL : List Char) (strand start stop : Int) :
    List (List Char) → Bool → List Char → SeqResult
  | [], _, _ => .err
  | line :: rest, seek, seq =>
    if isHeaderLine line then
      match headerTok (stripChars line) with
      | none => .crash
      | some tok =>
        seqScan chromL strand start stop rest (lowerChars tok == lowerChars chromL) seq
    else
      if seek then
        let seq2 := seq ++ stripChars line
        if stop ≤ (seq2.length : Int) then .ok (strandAdjust strand (pySlice seq2 start stop))
        else seqScan chromL strand start stop rest true seq2
      else seqScan chromL strand start stop rest false seq

/-- `sequence_for_pos(fasta, chrom, strand, start, end)` over the file's
lines. -/
def sequence_for_pos (lines : List String) (chrom : String) (strand start stop : Int) :
    SeqResult :=
  seqScan chrom.toList strand start stop (lines.map (fun s => s.toList)) false []

/-- Record-level view of the reference lines: walking from the right,
`recScan` returns the records after the first header (header token paired with
the concatenation of its stripped body lines) together with the stripped body
lines pending before the first header. -/
def recScan : List (List Char) → List (Option (List Char) × List Char) × List Char
  | [] => ([], [])
  | line :: rest =>
    let p := recScan rest
    if isHeaderLine line then ((headerTok (stripChars line), p.2) :: p.1, [])
    else (p.1, stripChars line ++ p.2)

/-- The header-delimited records of the reference: name token (if the header
has one) and accumulated stripped sequence body. -/
def recordsOf (lines : List (List Char)) : List (Option (List Char) × List Char) :=
  (recScan lines).1

/-- Whether a record's name token matches the requested chromosome,
case-insensitively. -/
def tokMatches (chromL : List Char) (r : Option (List Char) × List Char) : Bool :=
  match r.1 with
  | some t => lowerChars t == lowerChars chromL
  | none => false

/-- Well-formed reference lines: every header line carries a name token (on a
token-less header the Python code crashes instead of raising its documented
error). -/
def headersOk (lines : List (List Char)) : Prop :=
  ∀ l ∈ lines, isHeaderLine l = true → (headerTok (stripChars l)).isSome

instance (lines : List (List Char)) : Decidable (headersOk lines) := by
  unfold headersOk; infer_instance

/-- `headersOk` restricts to the tail. -/
theorem headersOk_tail {line : List Char} {rest : List (List Char)}
    (h : headersOk (line :: rest)) : headersOk rest :=
  fun l hl => h l (List.mem_cons_of_mem _ hl)

/-- A slice wholly inside the prefix ignores the appended suffix. -/
theorem pySlice_append (s t : List Char) (start stop : Int)
    (h1 : 1 ≤ start) (h2 : start ≤ stop) (h3 : stop ≤ (s.length : Int)) :
    pySlice (s ++ t) start stop = pySlice s start stop := by
  unfold pySlice
  rw [List.drop_append_of_le_length (by omega)]
  rw [List.take_append_of_le_length (by rw [List.length_drop]; omega)]

/-- Scanning with `seek` off through lines none of whose records match the
chromosome ends in the final `ValueError`. -/
theorem seqScan_noMatch_err (chromL : List Char) (strand start stop : Int) :
    ∀ (lines : List (List Char)) (seq : List Char),
      headersOk lines →
      (recordsOf lines).countP (tokMatches chromL) = 0 →
      seqScan chromL strand start stop lines false seq = .err := by
  intro lines
  induction lines with
  | nil => intro seq _ _; rfl
  | cons line rest ih =>
    intro seq hok hcnt
    by_cases hH : isHeaderLine line = true
    · have htok := hok line (List.mem_cons_self _ _) hH
      match hT : headerTok (stripChars line) with
      | none => rw [hT] at htok; simp at htok
      | some tok =>
        have hrec : recordsOf (line :: rest) =
            (some tok, (recScan rest).2) :: recordsOf rest := by
          simp only [recordsOf, recScan, if_pos hH, hT]
        rw [hrec, List.countP_cons] at hcnt
        simp only [tokMatches] at hcnt
        by_cases hb : (lowerChars tok == lowerChars chromL) = true
        · rw [if_pos hb] at hcnt; omega
        · have hcnt2 : (recordsOf rest).countP (tokMatches chromL) = 0 := by
            rw [if_neg hb] at hcnt; omega
          simp only [seqScan, if_pos hH, hT]
          rw [Bool.not_eq_true] at hb
          rw [hb]
          exact ih seq (headersOk_tail hok) hcnt2
    · have hrec : recordsOf (line :: rest) = recordsOf rest := by
        simp only [recordsOf, recScan, if_neg hH]
      rw [hrec] at hcnt
      simp only [seqScan, if_neg hH, Bool.false_eq_true, if_false]
      exact ih seq (headersOk_tail hok) hcnt

/-- Scanning with `seek` on, inside the matching record with `seq` short of
`stop`: the scan returns the slice as soon as the buffer plus this record's
remaining body reaches `stop`, and otherwise falls through the following
(non-matching) records to the final error. -/
theorem seqScan_inMatch (chromL : List Char) (strand start stop : Int)
    (h1 : 1 ≤ start) (h2 : start ≤ stop) :
    ∀ (lines : List (List Char)) (seq : List Char),
      headersOk lines →
      (recordsOf lines).countP (tokMatches chromL) = 0 →
      (seq.length : Int) < stop →
      seqScan chromL strand start stop lines true seq =
        (if stop ≤ ((seq ++ (recScan lines).2).length : Int) then
          .ok (strandAdjust strand (pySlice (seq ++ (recScan lines).2) start stop))
        else .err) := by
  intro lines
  induction lines with
  | nil =>
    intro seq _ _ hlt
    simp only [recScan, List.append_nil]
    rw [if_neg (by omega)]
    rfl
  | cons line rest ih =>
    intro seq hok hcnt hlt
    by_cases hH : isHeaderLine line = true
    · have htok := hok line (List.mem_cons_self _ _) hH
      match hT : headerTok (stripChars line) with
      | none => rw [hT] at htok; simp at htok
      | some tok =>
        have hsc2 : (recScan (line :: rest)).2 = [] := by
          simp only [recScan, if_pos hH]
        rw [hsc2, List.append_nil, if_neg (by omega)]
        have hrec : recordsOf (line :: rest) =
            (some tok, (recScan rest).2) :: recordsOf rest := by
          simp only [recordsOf, recScan, if_pos hH, hT]
        rw [hrec, List.countP_cons] at hcnt
        simp only [tokMatches] at hcnt
        by_cases hb : (lowerChars tok == lowerChars chromL) = true
        · rw [if_pos hb] at hcnt; omega
        · have hcnt2 : (recordsOf rest).countP (tokMatches chromL) = 0 := by
            rw [if_neg hb] at hcnt; omega
          simp only [seqScan, if_pos hH, hT]
          rw [Bool.not_eq_true] at hb
          rw [hb]
          exact seqScan_noMatch_err chromL strand start stop rest seq
            (headersOk_tail hok) hcnt2
    · have hsc2 : (recScan (line :: rest)).2 = stripChars line ++ (recScan rest).2 := by
        simp only [recScan, if_neg hH]
      have hrec : recordsOf (line :: rest) = recordsOf rest := by
        simp only [recordsOf, recScan, if_neg hH]
      rw [hrec] at hcnt
      simp only [seqScan, if_neg hH]
      rw [hsc2, ← List.append_assoc]
      by_cases hstop : stop ≤ ((seq ++ stripChars line).length : Int)
      · rw [if_pos trivial, if_pos hstop]
        rw [if_pos (show stop ≤ (((seq ++ stripChars line) ++ (recScan rest).2).length : Int) by
          rw [List.length_append]; push_cast; omega)]
        rw [pySlice_append (seq ++ stripChars line) (recScan rest).2 start stop h1 h2 hstop]
      · rw [if_pos trivial, if_neg hstop]
        exact ih (seq ++ stripChars line) (headersOk_tail hok) hcnt (by omega)

/-- The record-level description of the whole scan started with `seek` off and
an empty buffer, over a reference in which at most one record matches. -/
theorem seqScan_record_spec (chromL : List Char) (strand start stop : Int)
    (h1 : 1 ≤ start) (h2 : start ≤ stop) :
    ∀ lines : List (List Char),
      headersOk lines →
      (recordsOf lines).countP (tokMatches chromL) ≤ 1 →
      seqScan chromL strand start stop lines false [] =
        (match (recordsOf lines).find? (tokMatches chromL) with
        | some r =>
          if stop ≤ (r.2.length : Int) then .ok (strandAdjust strand (pySlice r.2 start stop))
          else .err
        | none => .err) := by
  intro lines
  induction lines with
  | nil => intro _ _; rfl
  | cons line rest ih =>
    intro hok hcnt
    by_cases hH : isHeaderLine line = true
    · have htok := hok line (List.mem_cons_self _ _) hH
      match hT : headerTok (stripChars line) with
      | none => rw [hT] at htok; simp at htok
      | some tok =>
        have hrec : recordsOf (line :: rest) =
            (some tok, (recScan rest).2) :: recordsOf rest := by
          simp only [recordsOf, recScan, if_pos hH, hT]
        rw [hrec, List.countP_cons] at hcnt
        simp only [tokMatches] at hcnt
        simp only [seqScan, if_pos hH, hT]
        rw [hrec, List.find?_cons]
        by_cases hb : (lowerChars tok == lowerChars chromL) = true
        · have hM : tokMatches chromL (some tok, (recScan rest).2) = true := by
            simpa [tokMatches] using hb
          rw [hM, hb]
          have hcnt2 : (recordsOf rest).countP (tokMatches chromL) = 0 := by
            rw [if_pos hb] at hcnt; omega
          have hB := seqScan_inMatch chromL strand start stop h1 h2 rest []
            (headersOk_tail hok) hcnt2 (by simp; omega)
          simpa using hB
        · have hM : tokMatches chromL (some tok, (recScan rest).2) = false := by
            simpa [tokMatches] using hb
          rw [hM]
          rw [Bool.not_eq_true] at hb
          rw [hb]
          have hcnt2 : (recordsOf rest).countP (tokMatches chromL) ≤ 1 := by
            rw [if_neg (by simp [hb])] at hcnt; omega
          exact ih (headersOk_tail hok) hcnt2
    · have hrec : recordsOf (line :: rest) = recordsOf rest := by
        simp only [recordsOf, recScan, if_neg hH]
      rw [hrec] at hcnt
      simp only [seqScan, if_neg hH, Bool.false_eq_true, if_false]
      rw [hrec]
      exact ih (headersOk_tail hok) hcnt

/-! ## Claim theorems: C7 -/

/-- C7 counterexample: with two records both named `chr` (headers `>chr` with
bodies `AC` and `GT`), requesting interval `(1,3)` returns the string `ACG`
even though no single record accumulates 3 bases: the `seq` buffer is never
reset between records, so records with the same matching name accumulate
jointly.  This refutes the claimed equivalence "returns a string iff some
record whose token matches accumulates at least `end` bases". -/
theorem duplicate_records_accumulate_jointly :
    sequence_for_pos [">chr", "AC", ">chr", "GT"] "chr" 1 1 3 = .ok ['A', 'C', 'G'] ∧
      (recordsOf (([">chr", "AC", ">chr", "GT"] : List String).map (fun s => s.toList))).find?
        (fun r => tokMatches "chr".toList r && decide ((3 : Int) ≤ (r.2.length : Int))) =
        none := by
  decide

/-- C7 amended: over a well-formed reference — every header line carries a
name token and at most one record's first header token matches the requested
chromosome case-insensitively — `sequence_for_pos` on a 1-based interval
`1 ≤ start ≤ end` returns a string iff the matching record accumulates at
least `end` bases; on success the string is exactly the `end-start+1`
characters of that record at the interval (reverse-complemented unless
strand = 1), and otherwise the scan ends in the `ValueError`
(`SequenceNotFoundError`), both when the chromosome is never seen and when the
interval extends past the record's data. -/
theorem sequence_for_pos_record_spec (lines : List String) (chrom : String)
    (strand start stop : Int)
    (hok : headersOk (lines.map (fun s => s.toList)))
    (huniq : (recordsOf (lines.map (fun s => s.toList))).countP (tokMatches chrom.toList) ≤ 1)
    (h1 : 1 ≤ start) (h2 : start ≤ stop) :
    sequence_for_pos lines chrom strand start stop =
      (match (recordsOf (lines.map (fun s => s.toList))).find? (tokMatches chrom.toList) with
      | some r =>
        if stop ≤ (r.2.length : Int) then .ok (strandAdjust strand (pySlice r.2 start stop))
        else .err
      | none => .err) := by
  unfold sequence_for_pos
  exact seqScan_record_spec chrom.toList strand start stop h1 h2
    (lines.map (fun s => s.toList)) hok huniq

/-- Witness for the amended C7, at the spec's extraction scenario shape: one
record `>Pf3D7_07_v3 description`, bodies `ACGTACGTAC` and `GGGTT`, interval
`(9,12)` on strand `+1`, chromosome requested in different case. -/
theorem sequence_for_pos_record_spec_witness :
    sequence_for_pos [">Pf3D7_07_v3 description", "ACGTACGTAC", "GGGTT"]
      "pf3d7_07_v3" 1 9 12 = .ok ['A', 'C', 'G', 'G'] :=
  (sequence_for_pos_record_spec [">Pf3D7_07_v3 description", "ACGTACGTAC", "GGGTT"]
    "pf3d7_07_v3" 1 9 12 (by decide) (by decide) (by decide) (by decide)).trans (by decide)

